import Mathlib

/-!
Verification development for the step/composite-tool/proof-checker core
(`tool_step.py`) of the geo_logic repository.

The embedding is a shallow, executable translation of the source:
* global object indices are natural numbers; the shared numerical model
  (`LogicalCore`, which lives outside the provided source and is modelled
  from the spec) is a list of numeric witnesses;
* Python object identity of model instances is modelled by an explicit heap
  (`List LogicalCore`) with references being indices, so that frame
  properties ("the ambient model is unchanged") are genuine statements;
* the mutually recursive execution functions (`run_steps`, composite
  `run_no_mem`, `proof_check`, `ProofChecker.check`) are translated as a
  fuel-indexed mutual recursion; fuel exhaustion is reported through the
  distinguished error `PyErr.outOfFuel`, which is never caught;
* Python exceptions are values of `PyErr`; a raise in the middle of a run
  keeps the state mutated so far, exactly as in Python, so results carry
  both the error option and the final state.
-/

/-- Global index of an object in a logical core (geometrical reference). -/
abbrev GIdx := Nat

/-- Concrete numeric witness attached to a model object. -/
abbrev NumVal := Int

/-- Semantic type tag of tool inputs/outputs. -/
abbrev Ty := String

/-- Catalogue of basic/primitive tools, kept abstract (only stored and
passed to fresh `LogicalCore` instances by the source). -/
abbrev Catalog := List String

/-- Python exceptions relevant to the source: `ToolError` values (carrying
the accumulated `tool_traceback`), other exceptions (`KeyError`,
`TypeError`, `IndexError`, `AssertionError`, wrapped messages), and the
fuel-exhaustion marker of the embedding. -/
inductive PyErr where
  | toolError (msg : String) (tool_traceback : List String)
  | exception (msg : String)
  | outOfFuel
deriving DecidableEq

/-- Translation of `if not isinstance(e, ToolError): e = ToolErrorException(e)`:
a non-`ToolError` exception is wrapped into a `ToolError` subclass value.
The fuel marker is an artifact of the embedding and stays transparent. -/
def toToolError : PyErr → PyErr
  | .toolError m tb => .toolError m tb
  | .exception m => .toolError ("ToolErrorException: " ++ m) []
  | .outOfFuel => .outOfFuel

/-- Translation of `e.tool_traceback.append(step.debug_msg)` guarded by
`step.debug_msg is not None` (only `ToolError` values carry a traceback). -/
def addTraceback (e : PyErr) (msg : Option String) : PyErr :=
  match msg, e with
  | some m, .toolError s tb => .toolError s (tb ++ [m])
  | _, e => e

/-- Hyper-parameter values as supplied by callers: numbers that Python
`Fraction` accepts (integers, exact fractions) and other values that it
rejects with a `TypeError`. -/
inductive HParam where
  | int (n : Int)
  | frac (q : Rat)
  | other (tag : Nat)
deriving DecidableEq

/-- Translation of the Python `Fraction(x)` conversion used in
`ToolStep.__init__`: exact conversion for numbers, `TypeError` otherwise. -/
def pyFraction : HParam → Except PyErr Rat
  | .int n => .ok (n : Rat)
  | .frac q => .ok q
  | .other _ => .error (.exception "TypeError")

/-- Modelled from the spec: the external geometric object store
(`logical_core.py` is not part of the provided source). Per the spec it is
"constructed as a fresh, independently-scoped instance restricted to a
supplied catalogue of primitive tools", holds objects created from numeric
witnesses, and exposes numeric-witness lookup (`num_model`). Global
identifiers are consecutive indices into the object list. -/
structure LogicalCore where
  basic_tools : Option Catalog
  num_model : List NumVal

/-- Modelled from the spec: "create objects from a sequence of numeric
witnesses and return their global identifiers" (`logic.add_objs`). -/
def LogicalCore.add_objs (lc : LogicalCore) (nums : List NumVal) :
    LogicalCore × List GIdx :=
  (⟨lc.basic_tools, lc.num_model ++ nums⟩,
   List.range' lc.num_model.length nums.length)

/-- Kind of a primitive tool: the source distinguishes numeric-dimension
computations and predicates (`DimCompute`, `DimPred`) from other basic
tools via `isinstance`. -/
inductive PrimKind where
  | dimCompute
  | dimPred
  | basic
deriving DecidableEq

mutual
/-- A tool capability: either a primitive tool (external; carries its
declared signature and its execution operation on a logical core), or a
composite tool (`CompositeTool` of the source). -/
inductive Tool : Type where
  | prim (name : String) (kind : PrimKind) (arg_types out_types : List Ty)
      (run : List HParam → List GIdx → LogicalCore → Nat →
             Except PyErr (LogicalCore × List GIdx))
  | comp (c : CompData)

/-- The data of a `CompositeTool` as passed to its constructor:
assumptions, implications, result projection, optional proof, declared
signature, name, and the optional catalogue of basic tools for proof
checking (`basic_tools`, stored as `proof_tools`). -/
inductive CompData : Type where
  | mk (assumptions implications : List ToolStep) (result : List Nat)
      (proof : Option (List ToolStep)) (arg_types out_types : List Ty)
      (name : String) (proof_tools : Option Catalog)

/-- A `ToolStep`: one tool bound to hyper-parameters, local argument
indices and an optional contiguous block of local output indices. The
mutable diagnostic `success` field is not part of the immutable step; the
execution functions below return the per-step success flags instead. -/
inductive ToolStep : Type where
  | mk (tool : Tool) (hyper_params : List HParam) (local_args : List Nat)
      (local_outputs : Option (List Nat)) (debug_msg : Option String)
end

def ToolStep.tool : ToolStep → Tool
  | .mk t _ _ _ _ => t

def ToolStep.hyper_params : ToolStep → List HParam
  | .mk _ hp _ _ _ => hp

def ToolStep.local_args : ToolStep → List Nat
  | .mk _ _ la _ _ => la

def ToolStep.local_outputs : ToolStep → Option (List Nat)
  | .mk _ _ _ lo _ => lo

def ToolStep.debug_msg : ToolStep → Option String
  | .mk _ _ _ _ dm => dm

def CompData.assumptions : CompData → List ToolStep
  | .mk a _ _ _ _ _ _ _ => a

def CompData.implications : CompData → List ToolStep
  | .mk _ i _ _ _ _ _ _ => i

def CompData.result : CompData → List Nat
  | .mk _ _ r _ _ _ _ _ => r

def CompData.proof : CompData → Option (List ToolStep)
  | .mk _ _ _ p _ _ _ _ => p

def CompData.arg_types : CompData → List Ty
  | .mk _ _ _ _ at_ _ _ _ => at_

def CompData.out_types : CompData → List Ty
  | .mk _ _ _ _ _ ot _ _ => ot

def CompData.name : CompData → String
  | .mk _ _ _ _ _ _ n _ => n

def CompData.proof_tools : CompData → Option Catalog
  | .mk _ _ _ _ _ _ _ pt => pt

def Tool.out_types : Tool → List Ty
  | .prim _ _ _ ot _ => ot
  | .comp c => c.out_types

def Tool.arg_types : Tool → List Ty
  | .prim _ _ at_ _ _ => at_
  | .comp c => c.arg_types

def Tool.name : Tool → String
  | .prim n _ _ _ _ => n
  | .comp c => c.name

/-- Translation of `isinstance(tool, (DimCompute, DimPred))`. -/
def Tool.isDim : Tool → Bool
  | .prim _ .dimCompute _ _ _ => true
  | .prim _ .dimPred _ _ _ => true
  | _ => false

/-- Exception-propagating map over a list, mirroring a Python list/tuple
comprehension in which each element computation may raise. -/
def mapME (f : α → Except PyErr β) : List α → Except PyErr (List β)
  | [] => .ok []
  | a :: l =>
    match f a with
    | .error e => .error e
    | .ok b =>
      match mapME f l with
      | .error e => .error e
      | .ok bs => .ok (b :: bs)

/-- Translation of `ToolStep.__init__`: hyper-parameters are converted to
exact rationals exactly for `DimCompute`/`DimPred` tools (a conversion
that raises on non-numeric values), and the output block is
`range(start_out, start_out + len(tool.out_types))` when `start_out` is
not `None`. -/
def ToolStep.init (tool : Tool) (hyper_params : List HParam)
    (local_args : List Nat) (start_out : Option Nat)
    (debug_msg : Option String) : Except PyErr ToolStep :=
  match (if tool.isDim then
           mapME (fun x => (pyFraction x).map HParam.frac) hyper_params
         else .ok hyper_params) with
  | .error e => .error e
  | .ok hp =>
    .ok (.mk tool hp local_args
          (start_out.map (fun s => List.range' s tool.out_types.length))
          debug_msg)

mutual
/-- The precomputed scheduling weight `deep_len_all` of a composite tool,
as computed by `CompositeTool.__init__`: the sum of `deep_len_all` over
the composite-tool steps of `assumptions`, plus (when a proof exists)
`1` plus the same sum over the composite-tool steps of
`implications + proof` (that is, plus `deep_len_proof`). -/
def CompData.deepLenAll : CompData → Nat
  | .mk assumptions implications _ proof _ _ _ _ =>
    stepsDeepLen assumptions +
      (match proof with
       | none => 0
       | some p => 1 + stepsDeepLen implications + stepsDeepLen p)

/-- Sum of `deep_len_all` over the composite-tool steps of a list, i.e.
`sum(step.tool.deep_len_all for step in l if isinstance(step.tool, CompositeTool))`. -/
def stepsDeepLen : List ToolStep → Nat
  | [] => 0
  | (ToolStep.mk t _ _ _ _) :: rest =>
    (match t with
     | .prim _ _ _ _ _ => 0
     | .comp c => CompData.deepLenAll c) + stepsDeepLen rest
end

/-- The precomputed scheduling weight `deep_len_proof` of a composite
tool, as computed by `CompositeTool.__init__`. -/
def CompData.deepLenProof (c : CompData) : Nat :=
  match c.proof with
  | none => 0
  | some p => 1 + stepsDeepLen c.implications + stepsDeepLen p

/-- Execution weight of any tool step, as read by the scheduler
(`step.tool.deep_len_all`, `0` for primitive tools). -/
def Tool.deepLenAll : Tool → Nat
  | .prim _ _ _ _ _ => 0
  | .comp c => c.deepLenAll

/-- A proof obligation: a composite tool paired with the concrete numeric
witness arguments to verify it on. -/
abbrev Oblig := CompData × List NumVal

/-- An item of the cross-thread submission queue: either an obligation
`(tool, num_args)` or the `(None, "reset")` control message. -/
inductive QItem where
  | task (t : Oblig)
  | resetMsg

/-- The mutable state of the `ProofChecker` singleton: FIFO queue, LIFO
stack, progress counter, batch list with its cursor, the disabled flag,
and whether the background worker thread is alive (`self.t.is_alive()`).
The wall-clock field `self.time` is not modelled. -/
structure CheckerState where
  q : List QItem
  stack : List Oblig
  checked_num : Nat
  task_index : Nat
  tasks : List Oblig
  disabled : Bool
  alive : Bool

/-- `ProofChecker.__init__`: everything empty, not disabled, worker not
started. -/
def CheckerState.initState : CheckerState :=
  ⟨[], [], 0, 0, [], false, false⟩

def CheckerState.disable (cs : CheckerState) : CheckerState :=
  { cs with disabled := true }

def CheckerState.enable (cs : CheckerState) : CheckerState :=
  { cs with disabled := false }

/-- `ProofChecker.paralelize`: starts the background worker thread. -/
def CheckerState.paralelize (cs : CheckerState) : CheckerState :=
  { cs with alive := true }

/-- Translation of `ProofChecker.reset`: it only enqueues the
`(None, "reset")` control message at the back of the FIFO queue; the
actual clearing is performed by the worker when `read_queue` consumes the
message. -/
def CheckerState.reset (cs : CheckerState) : CheckerState :=
  { cs with q := cs.q ++ [QItem.resetMsg] }

/-- Translation of `ProofChecker.read_queue`: take the next queue item;
an obligation is appended to the batch list `tasks`; the reset message
clears the stack, the batch list, the cursor and the progress counter
(the wall-clock timestamp update is not modelled). On an empty queue a
blocking `get` would wait; in this sequential model it is the identity
(the drain loop below only calls it on a non-empty queue). -/
def CheckerState.read_queue (cs : CheckerState) : CheckerState :=
  match cs.q with
  | [] => cs
  | QItem.task t :: rest => { cs with q := rest, tasks := cs.tasks ++ [t] }
  | QItem.resetMsg :: rest =>
    { cs with q := rest, stack := [], tasks := [], task_index := 0,
              checked_num := 0 }

/-- Translation of the drain loop at the top of `ProofChecker.process`:
`while not self.q.empty(): self.read_queue(False)`. -/
def CheckerState.drainQueue (cs : CheckerState) : CheckerState :=
  match h : cs.q with
  | [] => cs
  | i :: rest => CheckerState.drainQueue cs.read_queue
termination_by cs.q.length
decreasing_by
  unfold CheckerState.read_queue
  rw [h]
  cases i <;> simp

/-- The global mutable state visible to the execution engine: the heap of
live `LogicalCore` instances (Python object identity modelled by heap
indices) and the process-wide proof checker. -/
structure World where
  heap : List LogicalCore
  checker : CheckerState

/-- A `ToolStepEnv`: a reference to its logical core (a heap index) plus
the append-only local-to-global translation table, whose entries are
`none` for unresolved placeholders. -/
structure ToolStepEnv where
  logic : Nat
  local_to_global : List (Option GIdx)

/-- Result of `ToolStepEnv.run_steps`: the Python function mutates the
environment and the world and possibly raises; raising does not roll back
mutations, so the result carries the error option together with the final
environment and world, plus the `step.success` flags assigned to the
steps processed. -/
structure StepsResult where
  err : Option PyErr
  env : ToolStepEnv
  world : World
  succ : List Bool

/-- Translation of the argument-resolution comprehension
`tuple(self.local_to_global[v] for v in step.local_args)`; an
out-of-range local index raises `IndexError` (outside the `try` block). -/
def resolveArgs (la : List Nat) (l2g : List (Option GIdx)) :
    Except PyErr (List (Option GIdx)) :=
  mapME (fun v =>
    match l2g.get? v with
    | some x => .ok x
    | none => .error (.exception "IndexError")) la

/-- Translation of `[logic.num_model[gi] for gi in env.local_to_global]`:
an unresolved placeholder makes the subscript raise (`None` is not a
valid key), and so does a dangling global index. -/
def numArgsOf (lc : LogicalCore) (l2g : List (Option GIdx)) :
    Except PyErr (List NumVal) :=
  mapME (fun gi? =>
    match gi? with
    | none => .error (.exception "TypeError")
    | some gi =>
      match lc.num_model.get? gi with
      | some v => .ok v
      | none => .error (.exception "KeyError")) l2g

/-- Traceback entry appended by `CompositeTool.proof_check` when a
verification phase raises a `ToolError`:
`"Failed proof: {name} {num_args[:len(arg_types)]}"`. -/
def addProofTrace (c : CompData) (nums : List NumVal) (e : PyErr) : PyErr :=
  match e with
  | .toolError m tb =>
    .toolError m
      (tb ++ ["Failed proof: " ++ c.name ++ " " ++
              toString (nums.take c.arg_types.length)])
  | e => e

mutual
/-- Dispatch of `step.tool.run(hyper_params, global_args, logic, strictness)`:
a primitive tool runs its external operation on the logical core its
environment references (its failures are modelled as atomic); a composite
tool runs `run_no_mem` (memoization always misses in this model; the
hyper-parameters are not consumed by composite tools). -/
def runTool : Nat → Tool → List HParam → List GIdx → Nat → Bool → Nat →
    World → Except PyErr (List (Option GIdx)) × World
  | _, .prim _ _ _ _ f, hp, gargs, ref, _, strictness, w =>
    match f hp gargs (w.heap.getD ref ⟨none, []⟩) strictness with
    | .error e => (.error e, w)
    | .ok (lc, outs) => (.ok (outs.map some), ⟨w.heap.set ref lc, w.checker⟩)
  | 0, .comp _, _, _, _, _, _, w => (.error .outOfFuel, w)
  | fuel+1, .comp c, _, gargs, ref, onWorker, strictness, w =>
    runNoMem fuel c gargs ref onWorker strictness w
termination_by fuel _ _ _ _ _ _ _ => (fuel, 1)

/-- Translation of `CompositeTool.run_no_mem(args, logic, strictness)`. -/
def runNoMem : Nat → CompData → List GIdx → Nat → Bool → Nat →
    World → Except PyErr (List (Option GIdx)) × World
  | 0, _, _, _, _, _, w => (.error .outOfFuel, w)
  | fuel+1, c, args, ref, onWorker, strictness, w =>
    let env : ToolStepEnv := ⟨ref, args.map some⟩
    let r1 := runSteps fuel c.assumptions strictness false onWorker env w
    match r1.err with
    | some e => (.error e, r1.world)
    | none =>
      let cw : Option PyErr × World :=
        if strictness == 1 && c.proof.isSome then
          match numArgsOf (r1.world.heap.getD r1.env.logic ⟨none, []⟩)
                  r1.env.local_to_global with
          | .error e => (some e, r1.world)
          | .ok nums => check fuel c nums onWorker r1.world
        else (none, r1.world)
      match cw with
      | (some e, w2) => (.error e, w2)
      | (none, w2) =>
        let r2 := runSteps fuel c.implications 0 false onWorker r1.env w2
        match r2.err with
        | some e => (.error e, r2.world)
        | none =>
          match mapME (fun v =>
              match r2.env.local_to_global.get? v with
              | some x => .ok x
              | none => .error (PyErr.exception "IndexError")) c.result with
          | .error e => (.error e, r2.world)
          | .ok res => (.ok res, r2.world)
termination_by fuel _ _ _ _ _ _ => (fuel, 1)

/-- Translation of `ToolStepEnv.run_steps(steps, strictness, catch_errors)`. -/
def runSteps : Nat → List ToolStep → Nat → Bool → Bool → ToolStepEnv →
    World → StepsResult
  | _, [], _, _, _, env, w => ⟨none, env, w, []⟩
  | 0, _ :: _, _, _, _, env, w => ⟨some .outOfFuel, env, w, []⟩
  | fuel+1, step :: rest, strictness, catch_errors, onWorker, env, w =>
    match resolveArgs step.local_args env.local_to_global with
    | .error e => ⟨some e, env, w, []⟩
    | .ok gargs =>
      if none ∈ gargs then
        let r := runSteps fuel rest strictness catch_errors onWorker
          ⟨env.logic,
           env.local_to_global ++
             List.replicate step.tool.out_types.length none⟩ w
        ⟨r.err, r.env, r.world, false :: r.succ⟩
      else
        match runTool fuel step.tool step.hyper_params (gargs.filterMap id)
                env.logic onWorker strictness w with
        | (.ok outs, w1) =>
          let r := runSteps fuel rest strictness catch_errors onWorker
            ⟨env.logic, env.local_to_global ++ outs⟩ w1
          ⟨r.err, r.env, r.world, true :: r.succ⟩
        | (.error e, w1) =>
          if e = .outOfFuel then ⟨some .outOfFuel, env, w1, [false]⟩
          else if catch_errors then
            let r := runSteps fuel rest strictness catch_errors onWorker
              ⟨env.logic,
               env.local_to_global ++
                 List.replicate step.tool.out_types.length none⟩ w1
            ⟨r.err, r.env, r.world, false :: r.succ⟩
          else ⟨some (addTraceback (toToolError e) step.debug_msg),
                env, w1, [false]⟩
termination_by fuel _ _ _ _ _ _ => (fuel, 1)

/-- Translation of `ProofChecker.check(tool, num_args)`: the `onWorker`
flag models `threading.current_thread() == self.t`. -/
def check : Nat → CompData → List NumVal → Bool → World →
    Option PyErr × World
  | fuel, c, nums, onWorker, w =>
    if w.checker.disabled then (none, w)
    else if !w.checker.alive then proofCheck fuel c nums onWorker w
    else if !onWorker then
      (none, ⟨w.heap,
              { w.checker with q := w.checker.q ++ [QItem.task (c, nums)] }⟩)
    else
      (none, ⟨w.heap,
              { w.checker with stack := w.checker.stack ++ [(c, nums)] }⟩)
termination_by fuel _ _ _ _ => (fuel, 1)

/-- Translation of `CompositeTool.proof_check(num_args)`. -/
def proofCheck : Nat → CompData → List NumVal → Bool → World →
    Option PyErr × World
  | 0, _, _, _, w => (some .outOfFuel, w)
  | fuel+1, c, nums, onWorker, w =>
    match c.proof with
    | none => (some (.exception "AssertionError"), w)
    | some prf =>
      let lc0 : LogicalCore := ⟨c.proof_tools, []⟩
      let p := lc0.add_objs (nums.take c.arg_types.length)
      let ref := w.heap.length
      let w1 : World := ⟨w.heap ++ [p.1], w.checker⟩
      let env : ToolStepEnv := ⟨ref, p.2.map some⟩
      let r1 := runSteps fuel c.assumptions 0 false onWorker env w1
      match r1.err with
      | some e => (some (addProofTrace c nums e), r1.world)
      | none =>
        let bak := r1.env.local_to_global
        let r2 := runSteps fuel prf 1 false onWorker r1.env r1.world
        match r2.err with
        | some e => (some (addProofTrace c nums e), r2.world)
        | none =>
          let r3 := runSteps fuel c.implications 1 false onWorker
            ⟨r2.env.logic, bak⟩ r2.world
          match r3.err with
          | some e => (some (addProofTrace c nums e), r3.world)
          | none => (none, r3.world)
termination_by fuel _ _ _ _ => (fuel, 0)
end

/-- Translation of `isinstance(step.tool, CompositeTool)`. -/
def Tool.isComposite : Tool → Bool
  | .prim _ _ _ _ _ => false
  | .comp _ => true

/-- The declared-arity contract of a tool capability, as stated by the
spec for external collaborators: a primitive tool "produces outputs
matching `out_types`"; for a composite tool the result projection has the
declared output arity. -/
def Tool.ArityOK : Tool → Prop
  | .prim _ _ _ ot run =>
    ∀ hp args lc s lc2 outs, run hp args lc s = .ok (lc2, outs) →
      outs.length = ot.length
  | .comp c => c.result.length = c.out_types.length

/-- Modelled from the spec, section 4.2 "Execution (run)", steps 1 to 5:
create a fresh step environment seeded with the supplied global
arguments; run `assumptions` at the caller strictness; exactly when
strictness is "check" (1) and a proof exists, look up the concrete
numeric witness of every binding accumulated so far and submit the
obligation `(this tool, these witnesses)` to the proof checker; then run
`implications` at strictness 0 (postulate) regardless of the caller
level; finally select the outputs named by `result`. -/
def runNoMemSpec : Nat → CompData → List GIdx → Nat → Bool → Nat →
    World → Except PyErr (List (Option GIdx)) × World
  | 0, _, _, _, _, _, w => (.error .outOfFuel, w)
  | fuel+1, c, args, ref, onWorker, strictness, w =>
    let env : ToolStepEnv := ⟨ref, args.map some⟩
    let r1 := runSteps fuel c.assumptions strictness false onWorker env w
    match r1.err with
    | some e => (.error e, r1.world)
    | none =>
      let submitted : Option PyErr × World :=
        if strictness = 1 ∧ c.proof.isSome = true then
          match numArgsOf (r1.world.heap.getD r1.env.logic ⟨none, []⟩)
                  r1.env.local_to_global with
          | .error e => (some e, r1.world)
          | .ok witnesses => check fuel c witnesses onWorker r1.world
        else (none, r1.world)
      match submitted with
      | (some e, w2) => (.error e, w2)
      | (none, w2) =>
        let r2 := runSteps fuel c.implications 0 false onWorker r1.env w2
        match r2.err with
        | some e => (.error e, r2.world)
        | none =>
          match mapME (fun v =>
              match r2.env.local_to_global.get? v with
              | some x => .ok x
              | none => .error (PyErr.exception "IndexError")) c.result with
          | .error e => (.error e, r2.world)
          | .ok res => (.ok res, r2.world)

/-- Modelled from the spec, section 4.2 "Verification (proof_check)",
steps 1 to 8: build a brand-new isolated model seeded only with the tool
catalogue permitted for this proof; inject the supplied witnesses through
the `arg_types`-length prefix as initial objects; run `assumptions` at
strictness 0; snapshot the translation table; run `proof` at strictness
1; discard all proof-script bindings, so that `implications` runs at
strictness 1 against exactly the assumption-time environment; failures
are wrapped with a trace entry naming the tool and witnesses. -/
def proofCheckSpec : Nat → CompData → List NumVal → Bool → World →
    Option PyErr × World
  | 0, _, _, _, w => (some .outOfFuel, w)
  | fuel+1, c, nums, onWorker, w =>
    match c.proof with
    | none => (some (.exception "AssertionError"), w)
    | some prf =>
      let lc0 : LogicalCore := ⟨c.proof_tools, []⟩
      let p := lc0.add_objs (nums.take c.arg_types.length)
      let ref := w.heap.length
      let w1 : World := ⟨w.heap ++ [p.1], w.checker⟩
      let env : ToolStepEnv := ⟨ref, p.2.map some⟩
      let r1 := runSteps fuel c.assumptions 0 false onWorker env w1
      match r1.err with
      | some e => (some (addProofTrace c nums e), r1.world)
      | none =>
        let r2 := runSteps fuel prf 1 false onWorker r1.env r1.world
        match r2.err with
        | some e => (some (addProofTrace c nums e), r2.world)
        | none =>
          let r3 := runSteps fuel c.implications 1 false onWorker
            r1.env r2.world
          match r3.err with
          | some e => (some (addProofTrace c nums e), r3.world)
          | none => (none, r3.world)

/-- Agreement of two heaps on the first `n` references, together with the
fact that no reference below `n` dangles afterwards. -/
def heapAgrees (n : Nat) (h h2 : List LogicalCore) : Prop :=
  n ≤ h2.length ∧ ∀ i, i < n → h2.get? i = h.get? i

/-- Example primitive tool producing one output. -/
def exPrim : Tool := .prim "pt" .basic [] ["P"] (fun _ _ lc _ => .ok (lc, [0]))

/-- Example primitive tool that always raises a `ToolError`. -/
def exFail : Tool := .prim "bad" .basic [] ["P"]
  (fun _ _ _ _ => .error (.toolError "boom" []))

/-- Example numeric-dimension primitive tool. -/
def exDim : Tool := .prim "dim" .dimCompute [] ["D"] (fun _ _ lc _ => .ok (lc, []))

/-- The step that `ToolStep.init exDim [.int 3] [0] (some 2) none` builds. -/
def exDimStep : ToolStep :=
  .mk exDim [HParam.frac ((3 : Int) : Rat)] [0] (some (List.range' 2 1)) none

/-- Example composite tool with empty scripts and no proof. -/
def exComp : CompData := .mk [] [] [] none [] [] "ex" none

/-- Example composite tool with empty scripts and an empty (but present)
proof. -/
def exProofComp : CompData := .mk [] [] [] (some []) [] [] "pc" none

/-- Example logical core. -/
def exCore : LogicalCore := ⟨none, []⟩

/-- Example world whose checker is disabled. -/
def exWorldDisabled : World :=
  ⟨[exCore], { CheckerState.initState with disabled := true }⟩

/-- Example world with a default checker. -/
def exWorld : World := ⟨[exCore], CheckerState.initState⟩

/-- Example step whose single local argument is an unresolved placeholder
in the environment `exSkipEnv`. -/
def exSkipStep : ToolStep := .mk exPrim [] [0] (some [1]) none

/-- Example step with no arguments bound to the failing tool. -/
def exFailStep : ToolStep := .mk exFail [] [] (some [0]) none

/-- Environment whose only binding is an unresolved placeholder. -/
def exSkipEnv : ToolStepEnv := ⟨0, [none]⟩

/-- Environment with an empty translation table. -/
def exEnv : ToolStepEnv := ⟨0, []⟩

theorem mapME_ok_length {α β : Type} {f : α → Except PyErr β} :
    ∀ {l : List α} {bs : List β}, mapME f l = .ok bs → bs.length = l.length := by
  intro l
  induction l with
  | nil =>
    intro bs h
    simp only [mapME] at h
    cases h
    rfl
  | cons a t ih =>
    intro bs h
    simp only [mapME] at h
    cases hf : f a with
    | error e => rw [hf] at h; cases h
    | ok b =>
      rw [hf] at h
      cases hm : mapME f t with
      | error e => rw [hm] at h; cases h
      | ok bs2 =>
        rw [hm] at h
        cases h
        simp [ih hm]

theorem runSteps_logic : ∀ (fuel : Nat) (steps : List ToolStep)
    (strictness : Nat) (ce onW : Bool) (env : ToolStepEnv) (w : World),
    (runSteps fuel steps strictness ce onW env w).env.logic = env.logic := by
  intro fuel
  induction fuel with
  | zero =>
    intro steps s ce onW env w
    cases steps <;> simp [runSteps]
  | succ n ih =>
    intro steps s ce onW env w
    cases steps with
    | nil => simp [runSteps]
    | cons st rest =>
      simp only [runSteps]
      cases h : resolveArgs st.local_args env.local_to_global with
      | error e => simp
      | ok gargs =>
        simp only []
        by_cases hmem : none ∈ gargs
        · simp [hmem, ih]
        · simp only [hmem, if_neg, ite_false]
          cases hrt : runTool n st.tool st.hyper_params (gargs.filterMap id)
              env.logic onW s w with
          | mk res w1 =>
            cases res with
            | ok outs => simp [ih]
            | error e =>
              by_cases he : e = PyErr.outOfFuel
              · simp [he]
              · by_cases hce : ce <;> simp [he, hce, ih]

theorem runSteps_extend : ∀ (fuel : Nat) (steps : List ToolStep)
    (strictness : Nat) (ce onW : Bool) (env : ToolStepEnv) (w : World),
    ∃ t, (runSteps fuel steps strictness ce onW env w).env.local_to_global
          = env.local_to_global ++ t := by
  intro fuel
  induction fuel with
  | zero =>
    intro steps s ce onW env w
    cases steps <;> exact ⟨[], by simp [runSteps]⟩
  | succ n ih =>
    intro steps s ce onW env w
    cases steps with
    | nil => exact ⟨[], by simp [runSteps]⟩
    | cons st rest =>
      simp only [runSteps]
      cases h : resolveArgs st.local_args env.local_to_global with
      | error e => exact ⟨[], by simp⟩
      | ok gargs =>
        simp only []
        by_cases hmem : none ∈ gargs
        · simp only [hmem, ite_true]
          obtain ⟨t, ht⟩ := ih rest s ce onW
            ⟨env.logic, env.local_to_global ++
              List.replicate st.tool.out_types.length none⟩ w
          exact ⟨List.replicate st.tool.out_types.length none ++ t,
                 by simp [ht]⟩
        · simp only [hmem, ite_false]
          cases hrt : runTool n st.tool st.hyper_params (gargs.filterMap id)
              env.logic onW s w with
          | mk res w1 =>
            cases res with
            | ok outs =>
              obtain ⟨t, ht⟩ := ih rest s ce onW
                ⟨env.logic, env.local_to_global ++ outs⟩ w1
              exact ⟨outs ++ t, by simp [ht]⟩
            | error e =>
              by_cases he : e = PyErr.outOfFuel
              · exact ⟨[], by simp [he]⟩
              · by_cases hce : ce
                · subst hce
                  obtain ⟨t, ht⟩ := ih rest s true onW
                    ⟨env.logic, env.local_to_global ++
                      List.replicate st.tool.out_types.length none⟩ w1
                  exact ⟨List.replicate st.tool.out_types.length none ++ t,
                         by simp [he, ht]⟩
                · exact ⟨[], by simp [he, hce]⟩

theorem runNoMem_ok_length : ∀ (fuel : Nat) (c : CompData) (args : List GIdx)
    (ref : Nat) (onW : Bool) (strictness : Nat) (w : World)
    (res : List (Option GIdx)) (w2 : World),
    runNoMem fuel c args ref onW strictness w = (.ok res, w2) →
    res.length = c.result.length := by
  intro fuel c args ref onW s w res w2 h
  cases fuel with
  | zero => simp [runNoMem] at h
  | succ n =>
    simp only [runNoMem] at h
    cases h1 : (runSteps n c.assumptions s false onW
        ⟨ref, args.map some⟩ w).err with
    | some e => rw [h1] at h; simp at h
    | none =>
      rw [h1] at h
      simp only [] at h
      rcases hcw : (if (s == 1 && c.proof.isSome) = true then
          match numArgsOf ((runSteps n c.assumptions s false onW
              ⟨ref, args.map some⟩ w).world.heap.getD
              (runSteps n c.assumptions s false onW
                ⟨ref, args.map some⟩ w).env.logic ⟨none, []⟩)
              (runSteps n c.assumptions s false onW
                ⟨ref, args.map some⟩ w).env.local_to_global with
          | .error e => (some e, (runSteps n c.assumptions s false onW
              ⟨ref, args.map some⟩ w).world)
          | .ok nums => check n c nums onW (runSteps n c.assumptions s false onW
              ⟨ref, args.map some⟩ w).world
        else (none, (runSteps n c.assumptions s false onW
            ⟨ref, args.map some⟩ w).world)) with ⟨e2, w3⟩
      rw [hcw] at h
      cases e2 with
      | some e => simp at h
      | none =>
        simp only [] at h
        cases h2 : (runSteps n c.implications 0 false onW
            (runSteps n c.assumptions s false onW
              ⟨ref, args.map some⟩ w).env w3).err with
        | some e => rw [h2] at h; simp at h
        | none =>
          rw [h2] at h
          simp only [] at h
          cases hm : mapME (fun v =>
              match ((runSteps n c.implications 0 false onW
                  (runSteps n c.assumptions s false onW
                    ⟨ref, args.map some⟩ w).env w3).env.local_to_global).get? v with
              | some x => Except.ok x
              | none => Except.error (PyErr.exception "IndexError")) c.result with
          | error e => rw [hm] at h; simp at h
          | ok res0 =>
            rw [hm] at h
            simp only [Prod.mk.injEq] at h
            obtain ⟨hh, _⟩ := h
            cases hh
            exact mapME_ok_length hm

theorem runTool_ok_length : ∀ (fuel : Nat) (t : Tool) (hp : List HParam)
    (gargs : List GIdx) (ref : Nat) (onW : Bool) (strictness : Nat)
    (w : World) (outs : List (Option GIdx)) (w2 : World),
    t.ArityOK →
    runTool fuel t hp gargs ref onW strictness w = (.ok outs, w2) →
    outs.length = t.out_types.length := by
  intro fuel t hp gargs ref onW s w outs w2 ha h
  cases t with
  | prim nm k at_ ot f =>
    simp only [runTool] at h
    cases hf : f hp gargs (w.heap.getD ref ⟨none, []⟩) s with
    | error e => rw [hf] at h; simp at h
    | ok p =>
      rw [hf] at h
      simp only [Prod.mk.injEq] at h
      obtain ⟨h1, h2⟩ := h
      cases h1
      simp only [Tool.out_types]
      rw [List.length_map]
      exact ha hp gargs _ s p.1 p.2 (by rw [hf])
  | comp c =>
    cases fuel with
    | zero => simp [runTool] at h
    | succ n =>
      simp only [runTool] at h
      have := runNoMem_ok_length n c gargs ref onW s w outs w2 h
      simp only [Tool.out_types]
      rw [this]
      exact ha

theorem runSteps_ok_length : ∀ (fuel : Nat) (steps : List ToolStep)
    (strictness : Nat) (ce onW : Bool) (env : ToolStepEnv) (w : World),
    (∀ st ∈ steps, st.tool.ArityOK) →
    (runSteps fuel steps strictness ce onW env w).err = none →
    (runSteps fuel steps strictness ce onW env w).env.local_to_global.length
      = env.local_to_global.length
        + (steps.map (fun st => st.tool.out_types.length)).sum := by
  intro fuel
  induction fuel with
  | zero =>
    intro steps s ce onW env w ha h
    cases steps with
    | nil => simp [runSteps]
    | cons st rest => simp [runSteps] at h
  | succ n ih =>
    intro steps s ce onW env w ha h
    cases steps with
    | nil => simp [runSteps]
    | cons st rest =>
      simp only [runSteps] at h ⊢
      cases hr : resolveArgs st.local_args env.local_to_global with
      | error e => rw [hr] at h; simp at h
      | ok gargs =>
        rw [hr] at h
        simp only [] at h ⊢
        by_cases hmem : none ∈ gargs
        · simp only [hmem, ite_true] at h ⊢
          have := ih rest s ce onW
            ⟨env.logic, env.local_to_global ++
              List.replicate st.tool.out_types.length none⟩ w
            (fun x hx => ha x (List.mem_cons_of_mem _ hx)) h
          simp at this
          simp [this]
          ring
        · simp only [hmem, ite_false] at h ⊢
          cases hrt : runTool n st.tool st.hyper_params (gargs.filterMap id)
              env.logic onW s w with
          | mk rr w1 =>
            rw [hrt] at h
            cases rr with
            | ok outs =>
              simp only [] at h ⊢
              have hlen := runTool_ok_length n st.tool st.hyper_params
                (gargs.filterMap id) env.logic onW s w outs w1
                (ha st (List.mem_cons_self _ _)) hrt
              have := ih rest s ce onW
                ⟨env.logic, env.local_to_global ++ outs⟩ w1
                (fun x hx => ha x (List.mem_cons_of_mem _ hx)) h
              simp at this
              simp [this, hlen]
              ring
            | error e =>
              by_cases he : e = PyErr.outOfFuel
              · simp [he] at h
              · by_cases hce : ce
                · subst hce
                  have := ih rest s true onW
                    ⟨env.logic, env.local_to_global ++
                      List.replicate st.tool.out_types.length none⟩ w1
                    (fun x hx => ha x (List.mem_cons_of_mem _ hx))
                    (by simpa [he] using h)
                  simp at this
                  simp [he, this]
                  ring
                · simp [he, hce] at h

theorem stepsDeepLen_eq_map_sum : ∀ l : List ToolStep,
    stepsDeepLen l = (l.map (fun st => Tool.deepLenAll st.tool)).sum := by
  intro l
  induction l with
  | nil => simp [stepsDeepLen]
  | cons st rest ih =>
    cases st with
    | mk t hp la lo dm =>
      cases t <;>
        simp [stepsDeepLen, Tool.deepLenAll, ToolStep.tool, ih]

theorem stepsDeepLen_eq_zero : ∀ l : List ToolStep,
    (∀ st ∈ l, st.tool.isComposite = false) → stepsDeepLen l = 0 := by
  intro l hl
  rw [stepsDeepLen_eq_map_sum]
  have : ∀ st ∈ l, Tool.deepLenAll st.tool = 0 := by
    intro st hst
    have := hl st hst
    cases h : st.tool with
    | prim a b c d e => simp [Tool.deepLenAll]
    | comp c => rw [h] at this; simp [Tool.isComposite] at this
  rw [List.sum_eq_zero]
  intro x hx
  simp only [List.mem_map] at hx
  obtain ⟨st, hst, hx⟩ := hx
  rw [← hx]
  exact this st hst

theorem drainQueue_nil : ∀ cs : CheckerState, cs.q = [] →
    cs.drainQueue = cs := by
  intro cs hq
  rw [CheckerState.drainQueue]
  split
  · rfl
  · rename_i h
    rw [hq] at h
    cases h

theorem drainQueue_cons : ∀ (cs : CheckerState) (i : QItem)
    (rest : List QItem), cs.q = i :: rest →
    cs.drainQueue = cs.read_queue.drainQueue := by
  intro cs i rest hq
  rw [CheckerState.drainQueue]
  split
  · rename_i h
    rw [hq] at h
    cases h
  · rfl

theorem drain_reset_aux : ∀ (l : List QItem) (cs : CheckerState),
    cs.q = l ++ [QItem.resetMsg] →
    cs.drainQueue
      = { cs with
          q := [], stack := [], tasks := [], task_index := 0,
          checked_num := 0 } := by
  intro l
  induction l with
  | nil =>
    intro cs hq
    rw [drainQueue_cons cs _ _ hq]
    have h1 : cs.read_queue
        = { cs with
            q := [], stack := [], tasks := [], task_index := 0,
            checked_num := 0 } := by
      simp [CheckerState.read_queue, hq]
    rw [h1, drainQueue_nil _ rfl]
  | cons i rest ih =>
    intro cs hq
    rw [drainQueue_cons cs _ _ hq]
    cases i with
    | task t =>
      have h1 : cs.read_queue
          = { cs with
              q := rest ++ [QItem.resetMsg], tasks := cs.tasks ++ [t] } := by
        simp [CheckerState.read_queue, hq]
      rw [h1, ih _ rfl]
    | resetMsg =>
      have h1 : cs.read_queue
          = { cs with
              q := rest ++ [QItem.resetMsg], stack := [], tasks := [],
              task_index := 0, checked_num := 0 } := by
        simp [CheckerState.read_queue, hq]
      rw [h1, ih _ rfl]

theorem heapAgrees_refl : ∀ (n : Nat) (h : List LogicalCore),
    n ≤ h.length → heapAgrees n h h := by
  intro n h hn
  exact ⟨hn, fun i _ => rfl⟩

theorem heapAgrees_trans : ∀ {n : Nat} {h1 h2 h3 : List LogicalCore},
    heapAgrees n h1 h2 → heapAgrees n h2 h3 → heapAgrees n h1 h3 := by
  intro n h1 h2 h3 ha hb
  exact ⟨hb.1, fun i hi => (hb.2 i hi).trans (ha.2 i hi)⟩

theorem heapAgrees_set : ∀ (n : Nat) (h : List LogicalCore) (ref : Nat)
    (lc : LogicalCore), n ≤ h.length → n ≤ ref →
    heapAgrees n h (h.set ref lc) := by
  intro n h ref lc hn href
  refine ⟨by simp [hn], fun i hi => ?_⟩
  exact List.get?_set_ne lc h (by omega)

theorem heapAgrees_append : ∀ (n : Nat) (h l : List LogicalCore),
    n ≤ h.length → heapAgrees n h (h ++ l) := by
  intro n h l hn
  refine ⟨by simp; omega, fun i hi => ?_⟩
  exact List.get?_append (by omega)

theorem runTool_prim_frame : ∀ (fuel : Nat) (nm : String) (k : PrimKind)
    (at_ ot : List Ty)
    (f : List HParam → List GIdx → LogicalCore → Nat →
         Except PyErr (LogicalCore × List GIdx))
    (hp : List HParam) (gargs : List GIdx) (ref : Nat) (onW : Bool)
    (s : Nat) (w : World) (n : Nat),
    n ≤ w.heap.length → n ≤ ref →
    heapAgrees n w.heap
      ((runTool fuel (.prim nm k at_ ot f) hp gargs ref onW s w).2).heap := by
  intro fuel nm k at_ ot f hp gargs ref onW s w n hn href
  simp only [runTool]
  cases hf : f hp gargs (w.heap.getD ref ⟨none, []⟩) s with
  | error e => exact heapAgrees_refl n w.heap hn
  | ok p =>
    cases p with
    | mk lc outs => exact heapAgrees_set n w.heap ref lc hn href

theorem frame_all : ∀ fuel : Nat,
    (∀ (t : Tool) (hp : List HParam) (gargs : List GIdx) (ref : Nat)
       (onW : Bool) (s : Nat) (w : World) (n : Nat),
       n ≤ w.heap.length → n ≤ ref →
       heapAgrees n w.heap ((runTool fuel t hp gargs ref onW s w).2).heap) ∧
    (∀ (c : CompData) (args : List GIdx) (ref : Nat) (onW : Bool) (s : Nat)
       (w : World) (n : Nat),
       n ≤ w.heap.length → n ≤ ref →
       heapAgrees n w.heap ((runNoMem fuel c args ref onW s w).2).heap) ∧
    (∀ (steps : List ToolStep) (s : Nat) (ce onW : Bool)
       (env : ToolStepEnv) (w : World) (n : Nat),
       n ≤ w.heap.length → n ≤ env.logic →
       heapAgrees n w.heap
         ((runSteps fuel steps s ce onW env w).world).heap) ∧
    (∀ (c : CompData) (nums : List NumVal) (onW : Bool) (w : World)
       (n : Nat), n ≤ w.heap.length →
       heapAgrees n w.heap ((check fuel c nums onW w).2).heap) ∧
    (∀ (c : CompData) (nums : List NumVal) (onW : Bool) (w : World)
       (n : Nat), n ≤ w.heap.length →
       heapAgrees n w.heap ((proofCheck fuel c nums onW w).2).heap) := by
  intro fuel
  induction fuel with
  | zero =>
    have hP : ∀ (c : CompData) (nums : List NumVal) (onW : Bool) (w : World)
        (n : Nat), n ≤ w.heap.length →
        heapAgrees n w.heap ((proofCheck 0 c nums onW w).2).heap := by
      intro c nums onW w n hn
      simp only [proofCheck]
      exact heapAgrees_refl n w.heap hn
    refine ⟨?_, ?_, ?_, ?_, hP⟩
    · intro t hp gargs ref onW s w n hn href
      cases t with
      | prim nm k at_ ot f =>
        exact runTool_prim_frame 0 nm k at_ ot f hp gargs ref onW s w n hn href
      | comp c =>
        simp only [runTool]
        exact heapAgrees_refl n w.heap hn
    · intro c args ref onW s w n hn href
      simp only [runNoMem]
      exact heapAgrees_refl n w.heap hn
    · intro steps s ce onW env w n hn henv
      cases steps <;> simp only [runSteps] <;>
        exact heapAgrees_refl n w.heap hn
    · intro c nums onW w n hn
      simp only [check]
      by_cases hd : w.checker.disabled
      · simp only [hd, ite_true]
        exact heapAgrees_refl n w.heap hn
      · by_cases hal : w.checker.alive
        · by_cases honw : onW <;>
            simp [hd, hal, honw] <;>
            exact heapAgrees_refl n w.heap hn
        · have := hP c nums onW w n hn
          simp only [hd, hal, ite_false, Bool.not_false, ite_true,
            Bool.not_eq_true] at this ⊢
          simpa [hd, hal] using this
  | succ m ih =>
    obtain ⟨ihT, ihN, ihS, ihC, ihP⟩ := ih
    have hT : ∀ (t : Tool) (hp : List HParam) (gargs : List GIdx)
        (ref : Nat) (onW : Bool) (s : Nat) (w : World) (n : Nat),
        n ≤ w.heap.length → n ≤ ref →
        heapAgrees n w.heap
          ((runTool (m+1) t hp gargs ref onW s w).2).heap := by
      intro t hp gargs ref onW s w n hn href
      cases t with
      | prim nm k at_ ot f =>
        exact runTool_prim_frame (m+1) nm k at_ ot f hp gargs ref onW s w n
          hn href
      | comp c =>
        simp only [runTool]
        exact ihN c gargs ref onW s w n hn href
    have hS : ∀ (steps : List ToolStep) (s : Nat) (ce onW : Bool)
        (env : ToolStepEnv) (w : World) (n : Nat),
        n ≤ w.heap.length → n ≤ env.logic →
        heapAgrees n w.heap
          ((runSteps (m+1) steps s ce onW env w).world).heap := by
      intro steps s ce onW env w n hn henv
      cases steps with
      | nil =>
        simp only [runSteps]
        exact heapAgrees_refl n w.heap hn
      | cons st rest =>
        simp only [runSteps]
        cases hr : resolveArgs st.local_args env.local_to_global with
        | error e => exact heapAgrees_refl n w.heap hn
        | ok gargs =>
          simp only []
          by_cases hmem : none ∈ gargs
          · simp only [hmem, ite_true]
            exact ihS rest s ce onW _ w n hn henv
          · simp only [hmem, ite_false]
            cases hrt : runTool m st.tool st.hyper_params
                (gargs.filterMap id) env.logic onW s w with
            | mk rr w1 =>
              have hto : heapAgrees n w.heap w1.heap := by
                have := ihT st.tool st.hyper_params (gargs.filterMap id)
                  env.logic onW s w n hn henv
                rw [hrt] at this
                exact this
              cases rr with
              | ok outs =>
                simp only []
                exact heapAgrees_trans hto
                  (ihS rest s ce onW _ w1 n hto.1 henv)
              | error e =>
                by_cases he : e = PyErr.outOfFuel
                · simp only [he, ite_true]
                  exact hto
                · by_cases hce : ce
                  · subst hce
                    simp only [he, ite_false, ite_true]
                    exact heapAgrees_trans hto
                      (ihS rest s true onW _ w1 n hto.1 henv)
                  · simp only [he, hce, ite_false]
                    exact hto
    have hN : ∀ (c : CompData) (args : List GIdx) (ref : Nat) (onW : Bool)
        (s : Nat) (w : World) (n : Nat),
        n ≤ w.heap.length → n ≤ ref →
        heapAgrees n w.heap
          ((runNoMem (m+1) c args ref onW s w).2).heap := by
      intro c args ref onW s w n hn href
      simp only [runNoMem]
      have ha1 : heapAgrees n w.heap
          ((runSteps m c.assumptions s false onW ⟨ref, args.map some⟩
            w).world).heap :=
        ihS c.assumptions s false onW ⟨ref, args.map some⟩ w n hn href
      have hlog : (runSteps m c.assumptions s false onW
          ⟨ref, args.map some⟩ w).env.logic = ref :=
        runSteps_logic m c.assumptions s false onW ⟨ref, args.map some⟩ w
      cases h1e : (runSteps m c.assumptions s false onW
          ⟨ref, args.map some⟩ w).err with
      | some e => exact ha1
      | none =>
        simp only []
        by_cases hcond : (s == 1 && c.proof.isSome) = true
        · rw [if_pos hcond]
          cases hna : numArgsOf
              ((runSteps m c.assumptions s false onW ⟨ref, args.map some⟩
                w).world.heap.getD
                (runSteps m c.assumptions s false onW ⟨ref, args.map some⟩
                  w).env.logic ⟨none, []⟩)
              (runSteps m c.assumptions s false onW ⟨ref, args.map some⟩
                w).env.local_to_global with
          | error e => exact ha1
          | ok nums =>
            simp only []
            cases hck : check m c nums onW
                (runSteps m c.assumptions s false onW ⟨ref, args.map some⟩
                  w).world with
            | mk e2 w3 =>
              have hcw : heapAgrees n
                  ((runSteps m c.assumptions s false onW
                    ⟨ref, args.map some⟩ w).world).heap w3.heap := by
                have := ihC c nums onW
                  (runSteps m c.assumptions s false onW
                    ⟨ref, args.map some⟩ w).world n ha1.1
                rw [hck] at this
                exact this
              have ha2 : heapAgrees n w.heap w3.heap :=
                heapAgrees_trans ha1 hcw
              cases e2 with
              | some e => exact ha2
              | none =>
                simp only []
                have ha3 : heapAgrees n w.heap
                    ((runSteps m c.implications 0 false onW
                      (runSteps m c.assumptions s false onW
                        ⟨ref, args.map some⟩ w).env w3).world).heap :=
                  heapAgrees_trans ha2
                    (ihS c.implications 0 false onW _ w3 n ha2.1
                      (by rw [hlog]; exact href))
                cases h2e : (runSteps m c.implications 0 false onW
                    (runSteps m c.assumptions s false onW
                      ⟨ref, args.map some⟩ w).env w3).err with
                | some e => exact ha3
                | none =>
                  simp only []
                  cases hm : mapME (fun v =>
                      match ((runSteps m c.implications 0 false onW
                          (runSteps m c.assumptions s false onW
                            ⟨ref, args.map some⟩ w).env
                          w3).env.local_to_global).get? v with
                      | some x => Except.ok x
                      | none => Except.error (PyErr.exception "IndexError"))
                      c.result with
                  | error e => exact ha3
                  | ok res => exact ha3
        · rw [if_neg hcond]
          simp only []
          have ha3 : heapAgrees n w.heap
              ((runSteps m c.implications 0 false onW
                (runSteps m c.assumptions s false onW
                  ⟨ref, args.map some⟩ w).env
                (runSteps m c.assumptions s false onW
                  ⟨ref, args.map some⟩ w).world).world).heap :=
            heapAgrees_trans ha1
              (ihS c.implications 0 false onW _ _ n ha1.1
                (by rw [hlog]; exact href))
          cases h2e : (runSteps m c.implications 0 false onW
              (runSteps m c.assumptions s false onW
                ⟨ref, args.map some⟩ w).env
              (runSteps m c.assumptions s false onW
                ⟨ref, args.map some⟩ w).world).err with
          | some e => exact ha3
          | none =>
            simp only []
            cases hm : mapME (fun v =>
                match ((runSteps m c.implications 0 false onW
                    (runSteps m c.assumptions s false onW
                      ⟨ref, args.map some⟩ w).env
                    (runSteps m c.assumptions s false onW
                      ⟨ref, args.map some⟩ w).world).env.local_to_global).get?
                    v with
                | some x => Except.ok x
                | none => Except.error (PyErr.exception "IndexError"))
                c.result with
            | error e => exact ha3
            | ok res => exact ha3
    have hP : ∀ (c : CompData) (nums : List NumVal) (onW : Bool) (w : World)
        (n : Nat), n ≤ w.heap.length →
        heapAgrees n w.heap ((proofCheck (m+1) c nums onW w).2).heap := by
      intro c nums onW w n hn
      simp only [proofCheck]
      cases hp : c.proof with
      | none => exact heapAgrees_refl n w.heap hn
      | some prf =>
        simp only []
        have hw1 : heapAgrees n w.heap
            (w.heap ++ [(LogicalCore.add_objs ⟨c.proof_tools, []⟩
              (nums.take c.arg_types.length)).1]) :=
          heapAgrees_append n w.heap _ hn
        have href : n ≤ w.heap.length := hn
        have ha1 : heapAgrees n w.heap
            ((runSteps m c.assumptions 0 false onW
              ⟨w.heap.length,
               (LogicalCore.add_objs ⟨c.proof_tools, []⟩
                 (nums.take c.arg_types.length)).2.map some⟩
              ⟨w.heap ++ [(LogicalCore.add_objs ⟨c.proof_tools, []⟩
                (nums.take c.arg_types.length)).1],
               w.checker⟩).world).heap :=
          heapAgrees_trans hw1
            (ihS c.assumptions 0 false onW _ _ n (by simp; omega) href)
        have hlog1 : (runSteps m c.assumptions 0 false onW
            ⟨w.heap.length,
             (LogicalCore.add_objs ⟨c.proof_tools, []⟩
               (nums.take c.arg_types.length)).2.map some⟩
            ⟨w.heap ++ [(LogicalCore.add_objs ⟨c.proof_tools, []⟩
              (nums.take c.arg_types.length)).1],
             w.checker⟩).env.logic = w.heap.length :=
          runSteps_logic m c.assumptions 0 false onW _ _
        cases h1e : (runSteps m c.assumptions 0 false onW
            ⟨w.heap.length,
             (LogicalCore.add_objs ⟨c.proof_tools, []⟩
               (nums.take c.arg_types.length)).2.map some⟩
            ⟨w.heap ++ [(LogicalCore.add_objs ⟨c.proof_tools, []⟩
              (nums.take c.arg_types.length)).1],
             w.checker⟩).err with
        | some e => exact ha1
        | none =>
          simp only []
          have ha2 : heapAgrees n w.heap
              ((runSteps m prf 1 false onW
                (runSteps m c.assumptions 0 false onW
                  ⟨w.heap.length,
                   (LogicalCore.add_objs ⟨c.proof_tools, []⟩
                     (nums.take c.arg_types.length)).2.map some⟩
                  ⟨w.heap ++ [(LogicalCore.add_objs ⟨c.proof_tools, []⟩
                    (nums.take c.arg_types.length)).1],
                   w.checker⟩).env
                (runSteps m c.assumptions 0 false onW
                  ⟨w.heap.length,
                   (LogicalCore.add_objs ⟨c.proof_tools, []⟩
                     (nums.take c.arg_types.length)).2.map some⟩
                  ⟨w.heap ++ [(LogicalCore.add_objs ⟨c.proof_tools, []⟩
                    (nums.take c.arg_types.length)).1],
                   w.checker⟩).world).world).heap :=
            heapAgrees_trans ha1
              (ihS prf 1 false onW _ _ n ha1.1 (by rw [hlog1]; exact href))
          have hlog2 : (runSteps m prf 1 false onW
              (runSteps m c.assumptions 0 false onW
                ⟨w.heap.length,
                 (LogicalCore.add_objs ⟨c.proof_tools, []⟩
                   (nums.take c.arg_types.length)).2.map some⟩
                ⟨w.heap ++ [(LogicalCore.add_objs ⟨c.proof_tools, []⟩
                  (nums.take c.arg_types.length)).1],
                 w.checker⟩).env
              (runSteps m c.assumptions 0 false onW
                ⟨w.heap.length,
                 (LogicalCore.add_objs ⟨c.proof_tools, []⟩
                   (nums.take c.arg_types.length)).2.map some⟩
                ⟨w.heap ++ [(LogicalCore.add_objs ⟨c.proof_tools, []⟩
                  (nums.take c.arg_types.length)).1],
                 w.checker⟩).world).env.logic = w.heap.length := by
            rw [runSteps_logic, hlog1]
          cases h2e : (runSteps m prf 1 false onW
              (runSteps m c.assumptions 0 false onW
                ⟨w.heap.length,
                 (LogicalCore.add_objs ⟨c.proof_tools, []⟩
                   (nums.take c.arg_types.length)).2.map some⟩
                ⟨w.heap ++ [(LogicalCore.add_objs ⟨c.proof_tools, []⟩
                  (nums.take c.arg_types.length)).1],
                 w.checker⟩).env
              (runSteps m c.assumptions 0 false onW
                ⟨w.heap.length,
                 (LogicalCore.add_objs ⟨c.proof_tools, []⟩
                   (nums.take c.arg_types.length)).2.map some⟩
                ⟨w.heap ++ [(LogicalCore.add_objs ⟨c.proof_tools, []⟩
                  (nums.take c.arg_types.length)).1],
                 w.checker⟩).world).err with
          | some e => exact ha2
          | none =>
            simp only []
            have ha3 : heapAgrees n w.heap
                ((runSteps m c.implications 1 false onW
                  ⟨(runSteps m prf 1 false onW
                    (runSteps m c.assumptions 0 false onW
                      ⟨w.heap.length,
                       (LogicalCore.add_objs ⟨c.proof_tools, []⟩
                         (nums.take c.arg_types.length)).2.map some⟩
                      ⟨w.heap ++ [(LogicalCore.add_objs ⟨c.proof_tools, []⟩
                        (nums.take c.arg_types.length)).1],
                       w.checker⟩).env
                    (runSteps m c.assumptions 0 false onW
                      ⟨w.heap.length,
                       (LogicalCore.add_objs ⟨c.proof_tools, []⟩
                         (nums.take c.arg_types.length)).2.map some⟩
                      ⟨w.heap ++ [(LogicalCore.add_objs ⟨c.proof_tools, []⟩
                        (nums.take c.arg_types.length)).1],
                       w.checker⟩).world).env.logic,
                   (runSteps m c.assumptions 0 false onW
                     ⟨w.heap.length,
                      (LogicalCore.add_objs ⟨c.proof_tools, []⟩
                        (nums.take c.arg_types.length)).2.map some⟩
                     ⟨w.heap ++ [(LogicalCore.add_objs ⟨c.proof_tools, []⟩
                       (nums.take c.arg_types.length)).1],
                      w.checker⟩).env.local_to_global⟩
                  (runSteps m prf 1 false onW
                    (runSteps m c.assumptions 0 false onW
                      ⟨w.heap.length,
                       (LogicalCore.add_objs ⟨c.proof_tools, []⟩
                         (nums.take c.arg_types.length)).2.map some⟩
                      ⟨w.heap ++ [(LogicalCore.add_objs ⟨c.proof_tools, []⟩
                        (nums.take c.arg_types.length)).1],
                       w.checker⟩).env
                    (runSteps m c.assumptions 0 false onW
                      ⟨w.heap.length,
                       (LogicalCore.add_objs ⟨c.proof_tools, []⟩
                         (nums.take c.arg_types.length)).2.map some⟩
                      ⟨w.heap ++ [(LogicalCore.add_objs ⟨c.proof_tools, []⟩
                        (nums.take c.arg_types.length)).1],
                       w.checker⟩).world).world).world).heap :=
              heapAgrees_trans ha2
                (ihS c.implications 1 false onW _ _ n ha2.1
                  (by simp only []; rw [hlog2]; exact href))
            cases h3e : (runSteps m c.implications 1 false onW
                ⟨(runSteps m prf 1 false onW
                  (runSteps m c.assumptions 0 false onW
                    ⟨w.heap.length,
                     (LogicalCore.add_objs ⟨c.proof_tools, []⟩
                       (nums.take c.arg_types.length)).2.map some⟩
                    ⟨w.heap ++ [(LogicalCore.add_objs ⟨c.proof_tools, []⟩
                      (nums.take c.arg_types.length)).1],
                     w.checker⟩).env
                  (runSteps m c.assumptions 0 false onW
                    ⟨w.heap.length,
                     (LogicalCore.add_objs ⟨c.proof_tools, []⟩
                       (nums.take c.arg_types.length)).2.map some⟩
                    ⟨w.heap ++ [(LogicalCore.add_objs ⟨c.proof_tools, []⟩
                      (nums.take c.arg_types.length)).1],
                     w.checker⟩).world).env.logic,
                 (runSteps m c.assumptions 0 false onW
                   ⟨w.heap.length,
                    (LogicalCore.add_objs ⟨c.proof_tools, []⟩
                      (nums.take c.arg_types.length)).2.map some⟩
                   ⟨w.heap ++ [(LogicalCore.add_objs ⟨c.proof_tools, []⟩
                     (nums.take c.arg_types.length)).1],
                    w.checker⟩).env.local_to_global⟩
                (runSteps m prf 1 false onW
                  (runSteps m c.assumptions 0 false onW
                    ⟨w.heap.length,
                     (LogicalCore.add_objs ⟨c.proof_tools, []⟩
                       (nums.take c.arg_types.length)).2.map some⟩
                    ⟨w.heap ++ [(LogicalCore.add_objs ⟨c.proof_tools, []⟩
                      (nums.take c.arg_types.length)).1],
                     w.checker⟩).env
                  (runSteps m c.assumptions 0 false onW
                    ⟨w.heap.length,
                     (LogicalCore.add_objs ⟨c.proof_tools, []⟩
                       (nums.take c.arg_types.length)).2.map some⟩
                    ⟨w.heap ++ [(LogicalCore.add_objs ⟨c.proof_tools, []⟩
                      (nums.take c.arg_types.length)).1],
                     w.checker⟩).world).world).err with
            | some e => exact ha3
            | none => exact ha3
    have hC : ∀ (c : CompData) (nums : List NumVal) (onW : Bool) (w : World)
        (n : Nat), n ≤ w.heap.length →
        heapAgrees n w.heap ((check (m+1) c nums onW w).2).heap := by
      intro c nums onW w n hn
      simp only [check]
      by_cases hd : w.checker.disabled
      · simp only [hd, ite_true]
        exact heapAgrees_refl n w.heap hn
      · by_cases hal : w.checker.alive
        · by_cases honw : onW <;>
            simp [hd, hal, honw] <;>
            exact heapAgrees_refl n w.heap hn
        · have := hP c nums onW w n hn
          simpa [hd, hal] using this
    exact ⟨hT, hN, hS, hC, hP⟩

/-- C1: for every invocation of `CompositeTool.run_no_mem`, a proof
obligation (this tool, the numeric witnesses of every binding
accumulated after running the assumptions) is submitted to the proof
checker if and only if strictness equals 1 and the proof is not `None`
(in particular a tool with no proof never submits an obligation), and
the implications script is then run at strictness 0 regardless of the
caller strictness: the source translation `runNoMem` coincides with the
spec-side pipeline `runNoMemSpec`, whose submission is guarded by
exactly that condition and whose implications always run at 0. -/
theorem run_no_mem_matches_spec :
    ∀ (fuel : Nat) (c : CompData) (args : List GIdx) (ref : Nat)
      (onWorker : Bool) (strictness : Nat) (w : World),
      runNoMem fuel c args ref onWorker strictness w
        = runNoMemSpec fuel c args ref onWorker strictness w := by
  intro fuel c args ref onW s w
  cases fuel with
  | zero => simp [runNoMem, runNoMemSpec]
  | succ m =>
    simp only [runNoMem, runNoMemSpec]
    have hcond : ((s == 1 && c.proof.isSome) = true)
        ↔ (s = 1 ∧ c.proof.isSome = true) := by
      simp
    by_cases h : s = 1 ∧ c.proof.isSome = true
    · rw [if_pos (hcond.mpr h), if_pos h]
    · rw [if_neg (fun hh => h (hcond.mp hh)), if_neg h]

/-- C2: in `CompositeTool.proof_check`, when the proof script completes
without raising, the translation table is restored to exactly its state
from just after the assumptions ran (the snapshot taken before the
proof), so the implications script executes at strictness 1 against
precisely the assumption-time bindings, with no binding added by the
proof script remaining visible: the source translation `proofCheck`
coincides with the spec-side pipeline `proofCheckSpec`, which runs the
implications directly on the assumption-time environment. -/
theorem proof_check_restores_snapshot :
    ∀ (fuel : Nat) (c : CompData) (nums : List NumVal) (onWorker : Bool)
      (w : World),
      proofCheck fuel c nums onWorker w
        = proofCheckSpec fuel c nums onWorker w := by
  intro fuel c nums onW w
  cases fuel with
  | zero => simp [proofCheck, proofCheckSpec]
  | succ m =>
    simp only [proofCheck, proofCheckSpec]
    cases hp : c.proof with
    | none => rfl
    | some prf =>
      simp only []
      cases hr1 : runSteps m c.assumptions 0 false onW
          ⟨w.heap.length,
           (LogicalCore.add_objs ⟨c.proof_tools, []⟩
             (nums.take c.arg_types.length)).2.map some⟩
          ⟨w.heap ++ [(LogicalCore.add_objs ⟨c.proof_tools, []⟩
            (nums.take c.arg_types.length)).1], w.checker⟩ with
      | mk e1 env1 w1 succ1 =>
        simp only []
        cases e1 with
        | some e => rfl
        | none =>
          simp only []
          cases hr2 : runSteps m prf 1 false onW env1 w1 with
          | mk e2 env2 w2 succ2 =>
            have hlog : env2.logic = env1.logic := by
              have h1 : (runSteps m prf 1 false onW env1 w1).env = env2 := by
                rw [hr2]
              rw [← h1, runSteps_logic]
            simp only []
            cases e2 with
            | some e => rfl
            | none =>
              cases env1 with
              | mk L1 T1 =>
                cases env2 with
                | mk L2 T2 =>
                  simp only [ToolStepEnv.logic] at hlog
                  subst hlog
                  rfl

/-- C7: `ToolStepEnv.run_steps` is strictly additive on the translation
table: for every call (at any strictness, with or without catch_errors,
whether it completes or raises partway), every entry of
`local_to_global` present before the call is still present, unmodified
and at its position afterwards; entries are only appended at the end,
never removed or overwritten. -/
theorem run_steps_strictly_additive :
    ∀ (fuel : Nat) (steps : List ToolStep) (strictness : Nat)
      (catch_errors onWorker : Bool) (env : ToolStepEnv) (w : World),
      ∃ appended,
        (runSteps fuel steps strictness catch_errors onWorker env
          w).env.local_to_global
        = env.local_to_global ++ appended :=
  runSteps_extend

/-- C3: `CompositeTool.proof_check` never reads or mutates the ambient
live model: it constructs a brand-new `LogicalCore` seeded only with the
tool's own `proof_tools` catalogue, injects only the supplied witnesses
as its initial objects, and every phase (assumptions, proof,
implications, and recursively spawned checks) runs against fresh
instances, so after every `proof_check` call, succeeding or failing,
every pre-existing model instance in the heap is unchanged. -/
theorem proof_check_preserves_ambient :
    ∀ (fuel : Nat) (c : CompData) (nums : List NumVal) (onWorker : Bool)
      (w : World) (i : Nat), i < w.heap.length →
      ((proofCheck fuel c nums onWorker w).2).heap.get? i
        = w.heap.get? i := by
  intro fuel c nums onW w i hi
  exact ((frame_all fuel).2.2.2.2 c nums onW w w.heap.length
    (le_refl _)).2 i hi

theorem proof_check_preserves_ambient_witness :
    0 < exWorld.heap.length ∧
    ((proofCheck 0 exComp [] false exWorld).2).heap.get? 0
      = exWorld.heap.get? 0 :=
  ⟨by decide,
   proof_check_preserves_ambient 0 exComp [] false exWorld 0 (by decide)⟩

/-- C4: `ProofChecker.check(tool, num_args)`: if the checker is disabled
it performs no verification and returns without error or state change;
otherwise if no background worker is alive it runs
`tool.proof_check(num_args)` synchronously, propagating any failure to
the caller; otherwise a call from a thread other than the worker appends
to the FIFO queue and returns without raising, and a call from the
worker thread itself pushes onto the LIFO stack; consequently `check`
returns an error to its caller only in the synchronous (enabled, no live
worker) case. -/
theorem proof_checker_check_spec :
    ∀ (fuel : Nat) (c : CompData) (nums : List NumVal) (onWorker : Bool)
      (w : World),
      (w.checker.disabled = true →
        check fuel c nums onWorker w = (none, w)) ∧
      (w.checker.disabled = false → w.checker.alive = false →
        check fuel c nums onWorker w = proofCheck fuel c nums onWorker w) ∧
      (w.checker.disabled = false → w.checker.alive = true →
        onWorker = false →
        check fuel c nums onWorker w
          = (none, ⟨w.heap,
              { w.checker with
                q := w.checker.q ++ [QItem.task (c, nums)] }⟩)) ∧
      (w.checker.disabled = false → w.checker.alive = true →
        onWorker = true →
        check fuel c nums onWorker w
          = (none, ⟨w.heap,
              { w.checker with
                stack := w.checker.stack ++ [(c, nums)] }⟩)) ∧
      (∀ e w2, check fuel c nums onWorker w = (some e, w2) →
        w.checker.disabled = false ∧ w.checker.alive = false) := by
  intro fuel c nums onW w
  refine ⟨?_, ?_, ?_, ?_, ?_⟩
  · intro hd
    simp [check, hd]
  · intro hd hal
    simp [check, hd, hal]
  · intro hd hal ho
    simp [check, hd, hal, ho]
  · intro hd hal ho
    simp [check, hd, hal, ho]
  · intro e w2 hck
    by_cases hd : w.checker.disabled
    · simp [check, hd] at hck
    · by_cases hal : w.checker.alive
      · by_cases ho : onW <;> simp [check, hd, hal, ho] at hck
      · exact ⟨by simpa using hd, by simpa using hal⟩

theorem proof_checker_check_spec_witness :
    check 0 exComp [] false exWorldDisabled = (none, exWorldDisabled) :=
  (proof_checker_check_spec 0 exComp [] false exWorldDisabled).1 rfl

/-- C5: `ProofChecker.reset` abandons all queued, staged (batched) and
stacked obligations unconditionally and zeroes the progress counters
(`checked_num`, the batch cursor `task_index`, and the batch list
`tasks`) without stopping the worker thread: once the worker drains the
queue through the reset message, the checker state is exactly the
original with queue, stack, batch list, cursor and counter cleared
(`disabled` and `alive` untouched), so no obligation submitted before
the reset remains anywhere to be verified. -/
theorem reset_clears_pending :
    ∀ cs : CheckerState,
      (CheckerState.reset cs).drainQueue
        = { cs with
            q := [], stack := [], tasks := [], task_index := 0,
            checked_num := 0 } := by
  intro cs
  exact drain_reset_aux cs.q (CheckerState.reset cs) rfl

/-- C6: in `ToolStepEnv.run_steps`, each step appends exactly
`len(step.tool.out_types)` entries to `local_to_global`: under the
declared arity contract of the bound tools, a run that completes without
raising extends the table by exactly the sum of the output arities (an
executed step appends the tool's returned outputs), and a step whose
resolved global arguments contain an unresolved `none` is skipped
without invoking the tool, is marked success = false, and appends
exactly `len(step.tool.out_types)` placeholders, preserving positional
alignment for all later steps. -/
theorem run_steps_output_arity_spec :
    (∀ (fuel : Nat) (steps : List ToolStep) (strictness : Nat)
       (catch_errors onWorker : Bool) (env : ToolStepEnv) (w : World),
       (∀ st ∈ steps, st.tool.ArityOK) →
       (runSteps fuel steps strictness catch_errors onWorker env w).err
         = none →
       (runSteps fuel steps strictness catch_errors onWorker env
         w).env.local_to_global.length
         = env.local_to_global.length
           + (steps.map (fun st => st.tool.out_types.length)).sum) ∧
    (∀ (fuel : Nat) (step : ToolStep) (rest : List ToolStep)
       (strictness : Nat) (catch_errors onWorker : Bool)
       (env : ToolStepEnv) (w : World) (gargs : List (Option GIdx)),
       resolveArgs step.local_args env.local_to_global = .ok gargs →
       none ∈ gargs →
       runSteps (fuel+1) (step :: rest) strictness catch_errors onWorker
           env w
         = (let r := runSteps fuel rest strictness catch_errors onWorker
              ⟨env.logic, env.local_to_global ++
                List.replicate step.tool.out_types.length none⟩ w
            ⟨r.err, r.env, r.world, false :: r.succ⟩)) := by
  constructor
  · exact runSteps_ok_length
  · intro fuel step rest s ce onW env w gargs hr hmem
    simp only [runSteps]
    rw [hr]
    simp only []
    rw [if_pos hmem]

theorem run_steps_output_arity_witness :
    ((runSteps 0 [] 0 false false exEnv exWorld).env.local_to_global.length
      = exEnv.local_to_global.length
        + (([] : List ToolStep).map
            (fun st => st.tool.out_types.length)).sum) ∧
    (runSteps (0+1) (exSkipStep :: []) 0 false false exSkipEnv exWorld
      = (let r := runSteps 0 [] 0 false false
           ⟨exSkipEnv.logic, exSkipEnv.local_to_global ++
             List.replicate exSkipStep.tool.out_types.length none⟩ exWorld
         ⟨r.err, r.env, r.world, false :: r.succ⟩)) :=
  ⟨run_steps_output_arity_spec.1 0 [] 0 false false exEnv exWorld
     (by simp) (by simp [runSteps]),
   run_steps_output_arity_spec.2 0 exSkipStep [] 0 false false exSkipEnv
     exWorld [none] rfl (by simp)⟩

/-- C8 counterexample: the claim's final clause fails on the code: a
composite tool whose assumptions, implications and proof scripts contain
no composite-tool steps at all (here they are empty) but which declares
a proof has `deep_len_all = 1`, not `0`. -/
theorem deep_len_all_counterexample :
    exProofComp.assumptions = [] ∧ exProofComp.implications = [] ∧
    exProofComp.proof = some [] ∧ CompData.deepLenAll exProofComp ≠ 0 := by
  refine ⟨rfl, rfl, rfl, ?_⟩
  simp [exProofComp, CompData.deepLenAll, stepsDeepLen]

/-- C8 (amended): for every composite tool as constructed,
`deep_len_proof` equals 0 when `proof` is None and otherwise 1 plus the
sum of `deep_len_all` over the steps of `implications` and `proof`
(primitive-tool steps contribute 0, so this is the sum over the
composite-tool steps); `deep_len_all` equals the sum over the
assumptions steps plus `deep_len_proof` when a proof exists; and a
composite tool with no nested composite-tool steps in assumptions,
proof, or implications has `deep_len_all` equal to 1 when a proof (even
an empty one) is declared, and 0 when no proof is declared. -/
theorem deep_len_spec :
    ∀ (a i : List ToolStep) (r : List Nat) (p : Option (List ToolStep))
      (at_ ot : List Ty) (nm : String) (bt : Option Catalog),
      (CompData.deepLenProof (.mk a i r p at_ ot nm bt)
        = match p with
          | none => 0
          | some ps => 1 + ((i ++ ps).map
              (fun st => Tool.deepLenAll st.tool)).sum) ∧
      (CompData.deepLenAll (.mk a i r p at_ ot nm bt)
        = (a.map (fun st => Tool.deepLenAll st.tool)).sum
          + (if p.isSome then
              CompData.deepLenProof (.mk a i r p at_ ot nm bt) else 0)) ∧
      ((∀ st ∈ a ++ i ++ p.getD [], st.tool.isComposite = false) →
        CompData.deepLenAll (.mk a i r p at_ ot nm bt)
          = if p.isSome then 1 else 0) := by
  intro a i r p at_ ot nm bt
  have hdlp : CompData.deepLenProof (.mk a i r p at_ ot nm bt)
      = match p with
        | none => 0
        | some ps => 1 + stepsDeepLen i + stepsDeepLen ps := by
    cases p <;>
      simp [CompData.deepLenProof, CompData.proof, CompData.implications]
  have hdla : CompData.deepLenAll (.mk a i r p at_ ot nm bt)
      = stepsDeepLen a + (match p with
          | none => 0
          | some ps => 1 + stepsDeepLen i + stepsDeepLen ps) := by
    cases p <;> simp [CompData.deepLenAll]
  refine ⟨?_, ?_, ?_⟩
  · rw [hdlp]
    cases p with
    | none => rfl
    | some ps =>
      simp only [List.map_append, List.sum_append,
        stepsDeepLen_eq_map_sum]
      omega
  · rw [hdla, hdlp]
    cases p with
    | none => simp [stepsDeepLen_eq_map_sum]
    | some ps => simp [stepsDeepLen_eq_map_sum]
  · intro hnone
    rw [hdla]
    have hza : stepsDeepLen a = 0 :=
      stepsDeepLen_eq_zero a (fun st hst => hnone st (by simp [hst]))
    cases p with
    | none => simp [hza]
    | some ps =>
      have hzi : stepsDeepLen i = 0 :=
        stepsDeepLen_eq_zero i (fun st hst => hnone st (by simp [hst]))
      have hzp : stepsDeepLen ps = 0 :=
        stepsDeepLen_eq_zero ps (fun st hst => hnone st (by simp [hst]))
      simp [hza, hzi, hzp]

theorem deep_len_spec_witness :
    CompData.deepLenAll (.mk [] [] [] (some []) [] [] "pc" none)
      = if (some ([] : List ToolStep)).isSome then 1 else 0 :=
  (deep_len_spec [] [] [] (some []) [] [] "pc" none).2.2 (by simp)

/-- C9: `ToolStep.__init__` converts every hyper-parameter to an exact
rational (`Fraction`) exactly when the bound tool is a numeric-dimension
computation or predicate (`DimCompute` or `DimPred`), and otherwise
stores the hyper-parameters unconverted; and when `start_out` is not
None the step's `local_outputs` is the contiguous index block
`start_out .. start_out + len(tool.out_types) - 1`
(`List.range' start_out len`), while `start_out = None` yields
`local_outputs = None`. -/
theorem tool_step_init_spec :
    ∀ (tool : Tool) (hp : List HParam) (la : List Nat) (so : Option Nat)
      (dm : Option String),
      (tool.isDim = false →
        ToolStep.init tool hp la so dm
          = .ok (.mk tool hp la
              (so.map (fun s0 => List.range' s0 tool.out_types.length))
              dm)) ∧
      (∀ st, ToolStep.init tool hp la so dm = .ok st →
        (tool.isDim = true →
          mapME (fun x => (pyFraction x).map HParam.frac) hp
            = .ok st.hyper_params) ∧
        (tool.isDim = false → st.hyper_params = hp) ∧
        st.local_outputs
          = so.map (fun s0 => List.range' s0 tool.out_types.length)) := by
  intro tool hp la so dm
  constructor
  · intro hdim
    simp [ToolStep.init, hdim]
  · intro st hst
    by_cases hdim : tool.isDim
    · simp only [ToolStep.init, hdim, ite_true] at hst
      cases hm : mapME (fun x => (pyFraction x).map HParam.frac) hp with
      | error e => rw [hm] at hst; cases hst
      | ok hp2 =>
        rw [hm] at hst
        simp only [Except.ok.injEq] at hst
        refine ⟨fun _ => ?_, fun hc => ?_, ?_⟩
        · rw [← hst]
          simp [ToolStep.hyper_params]
        · rw [hdim] at hc
          cases hc
        · rw [← hst]
          simp [ToolStep.local_outputs]
    · simp only [ToolStep.init, hdim, Bool.false_eq_true, ite_false] at hst
      simp only [Except.ok.injEq] at hst
      refine ⟨fun hc => ?_, fun _ => ?_, ?_⟩
      · simp only [Bool.not_eq_true] at hdim
        rw [hdim] at hc
        cases hc
      · rw [← hst]
        simp [ToolStep.hyper_params]
      · rw [← hst]
        simp [ToolStep.local_outputs]

theorem tool_step_init_spec_witness :
    (mapME (fun x => (pyFraction x).map HParam.frac) [HParam.int 3]
      = .ok exDimStep.hyper_params) ∧
    exDimStep.local_outputs
      = (some 2).map (fun s0 => List.range' s0 exDim.out_types.length) := by
  have h := (tool_step_init_spec exDim [HParam.int 3] [0] (some 2)
    none).2 exDimStep (by rfl)
  exact ⟨h.1 rfl, h.2.2⟩

/-- C10: when `ToolStepEnv.run_steps` is called with catch_errors = true
and a step's tool raises during execution, the error is swallowed rather
than re-raised: the step's success flag stays false, exactly
`len(step.tool.out_types)` `none` placeholders are appended to the
translation table for that step (so later steps referring to its outputs
are skipped as unresolved instead of failing), and execution continues
with the remaining steps from the state the failing tool left behind. -/
theorem run_steps_catch_swallows :
    ∀ (fuel : Nat) (step : ToolStep) (rest : List ToolStep)
      (strictness : Nat) (onWorker : Bool) (env : ToolStepEnv) (w : World)
      (gargs : List (Option GIdx)) (e : PyErr) (w1 : World),
      resolveArgs step.local_args env.local_to_global = .ok gargs →
      none ∉ gargs →
      runTool fuel step.tool step.hyper_params (gargs.filterMap id)
        env.logic onWorker strictness w = (.error e, w1) →
      e ≠ .outOfFuel →
      runSteps (fuel+1) (step :: rest) strictness true onWorker env w
        = (let r := runSteps fuel rest strictness true onWorker
             ⟨env.logic, env.local_to_global ++
               List.replicate step.tool.out_types.length none⟩ w1
           ⟨r.err, r.env, r.world, false :: r.succ⟩) := by
  intro fuel step rest s onW env w gargs e w1 hr hmem hrt he
  simp only [runSteps]
  rw [hr]
  simp only []
  rw [if_neg hmem, hrt]
  simp only []
  rw [if_neg he]
  simp only [if_true]

theorem run_steps_catch_swallows_witness :
    runSteps (0+1) (exFailStep :: []) 0 true false exEnv exWorld
      = (let r := runSteps 0 [] 0 true false
           ⟨exEnv.logic, exEnv.local_to_global ++
             List.replicate exFailStep.tool.out_types.length none⟩ exWorld
         ⟨r.err, r.env, r.world, false :: r.succ⟩) :=
  run_steps_catch_swallows 0 exFailStep [] 0 false exEnv exWorld []
    (.toolError "boom" []) exWorld rfl (by simp)
    (by simp [runTool, exFailStep, exFail, ToolStep.tool,
      ToolStep.hyper_params]) (by simp)
